import Mathlib

/-!
Shallow embedding of the crt.sh lookup tool (src/crtsh.py) and proofs of
the specified properties of its normalisation, extraction and dispatch
logic.  Strings are modelled through their character lists; the regular
expression substitutions of the source are embedded as explicit scanning
functions with the leftmost, greedy, non-overlapping semantics of the
engine used by the source.
-/

namespace Crtsh

/-- Characters treated as whitespace by the strip step (ASCII fragment of
the whitespace set used by the source language). -/
def isPySpace (c : Char) : Bool :=
  c == ' ' || c == '\t' || c == '\n' || c == '\r' || c == '\x0b' || c == '\x0c'

/-- Character class of the local part of the email pattern on line 33 of
the source: letters, digits, dot, underscore, percent, plus, minus. -/
def isLocalChar (c : Char) : Bool :=
  c.isAlpha || c.isDigit || c == '.' || c == '_' || c == '%' || c == '+' || c == '-'

/-- Character class of the domain part of the email pattern: letters,
digits, dot, minus. -/
def isDomChar (c : Char) : Bool :=
  c.isAlpha || c.isDigit || c == '.' || c == '-'

/-- Character class of the final label of the email pattern: letters. -/
def isTldChar (c : Char) : Bool := c.isAlpha

/-- Left-to-right removal of every non-overlapping occurrence of the two
character sequence star dot, as the substitution on line 30 of the source
performs. -/
def removeStarDot : List Char → List Char
  | [] => []
  | '*' :: '.' :: rest => removeStarDot rest
  | c :: rest => c :: removeStarDot rest

/-- Descending search for the dot that precedes the final label of the
email pattern: the backtracking engine first consumes the longest domain
run and then retries the mandatory dot from the right.  Indices i + 1
down to 1 are tried; on success the index of the dot inside the domain
run is returned together with the number of letters the final label
greedily consumes (at most four, at least two). -/
def tryDot (rest : List Char) : Nat → Option (Nat × Nat)
  | 0 => none
  | i + 1 =>
    if rest.getD (i + 1) '@' == '.' then
      if 2 ≤ min ((rest.drop (i + 2)).takeWhile isTldChar).length 4 then
        some (i + 1, min ((rest.drop (i + 2)).takeWhile isTldChar).length 4)
      else tryDot rest i
    else tryDot rest i

/-- Length of the match of the email pattern anchored at the head of the
character list, when there is one, following the greedy semantics of the
pattern on line 33 of the source: maximal local run, the at sign, then a
domain run backtracked from the right until a dot followed by two to four
letters is found. -/
def matchEmail (l : List Char) : Option Nat :=
  if (l.takeWhile isLocalChar).length == 0 then none
  else
    match l.drop (l.takeWhile isLocalChar).length with
    | '@' :: rest =>
      if (rest.takeWhile isDomChar).length == 0 then none
      else
        match tryDot rest ((rest.takeWhile isDomChar).length - 1) with
        | some (i, t) => some ((l.takeWhile isLocalChar).length + 1 + i + 1 + t)
        | none => none
    | _ => none

/-- Fuelled scan that deletes every match of the email pattern, moving
left to right and resuming right after each deleted match, as the
substitution on line 33 of the source does. -/
def subEmailsAux : Nat → List Char → List Char
  | 0, l => l
  | _ + 1, [] => []
  | fuel + 1, c :: rest =>
    match matchEmail (c :: rest) with
    | some n => subEmailsAux fuel ((c :: rest).drop n)
    | none => c :: subEmailsAux fuel rest

/-- Deletion of every email-pattern match from a character list. -/
def subEmails (l : List Char) : List Char := subEmailsAux l.length l

/-- Removal of leading and trailing whitespace, as the strip call on line
36 of the source does. -/
def pyStrip (l : List Char) : List Char :=
  ((l.dropWhile isPySpace).reverse.dropWhile isPySpace).reverse

/-- ASCII lowercasing of every character, as the lower call on line 36 of
the source does. -/
def pyLower (l : List Char) : List Char := l.map Char.toLower

/-- Per-candidate normalisation of clean results: wildcard removal, email
removal, strip, lowercase, in the order of lines 29 to 36 of the source. -/
def cleanItem (s : String) : String :=
  ⟨pyLower (pyStrip (subEmails (removeStarDot s.data)))⟩

/-- Lexicographic comparison of character lists by code point. -/
def lexLe : List Char → List Char → Bool
  | [], _ => true
  | _ :: _, [] => false
  | a :: as, b :: bs =>
    if a < b then true
    else if b < a then false
    else lexLe as bs

/-- Ascending lexicographic order on strings by code point, the order in
which the sorted builtin returns these lists. -/
def strLe (s t : String) : Prop := lexLe s.data t.data = true

instance : DecidableRel strLe := fun s t => by unfold strLe; infer_instance

/-- Accumulating loop of clean results (lines 25 to 39 of the source):
falsy raw candidates are skipped, each surviving candidate is normalised,
and the normal form is appended when it is nonempty and not seen before. -/
def cleanAccum (acc : List String) : List String → List String
  | [] => acc
  | x :: xs =>
    if x = "" then cleanAccum acc xs
    else if cleanItem x ≠ "" ∧ cleanItem x ∉ acc then cleanAccum (acc ++ [cleanItem x]) xs
    else cleanAccum acc xs

/-- Embedding of clean results (lines 20 to 41 of the source): the
accumulated cleaned list, sorted ascending. -/
def clean_results (data : List String) : List String :=
  List.insertionSort strLe (cleanAccum [] data)

/-- Parsed certificate record: both name fields optional and string
valued. -/
structure CertRecord where
  common_name : Option String
  name_value : Option String
deriving DecidableEq

/-- Split on every occurrence of the two character sequence backslash
followed by the letter n, mirroring the split call on line 69 of the
source, whose separator is that literal two character sequence and not a
newline character. -/
def splitBackslashN : List Char → List (List Char)
  | [] => [[]]
  | '\\' :: 'n' :: rest => [] :: splitBackslashN rest
  | c :: rest =>
    match splitBackslashN rest with
    | p :: ps => (c :: p) :: ps
    | [] => [[c]]

/-- Candidate extraction of the domain search (lines 62 to 71 of the
source): per record, the common name first, then the segments the split
of the name value produces. -/
def extractDomain : List CertRecord → List String
  | [] => []
  | r :: rs =>
    (match r.common_name with
      | some c => [c]
      | none => [])
      ++ (match r.name_value with
          | some v => (splitBackslashN v.data).map (fun l => String.mk l)
          | none => [])
      ++ extractDomain rs

/-- Candidate extraction of the organization search (line 110 of the
source): only the common name field is read. -/
def extractOrg (rows : List CertRecord) : List String :=
  rows.filterMap (fun r => r.common_name)

/-- Replacement of every character outside the ASCII alphanumeric range
by an underscore (line 118 of the source). -/
def sanitizeOrg (org : String) : String :=
  ⟨org.data.map (fun c => if c.isAlphanum then c else '_')⟩

/-- Outcome of the single HTTP GET together with the raise-for-status
check: either the message of a raised exception or a response body. -/
inductive FetchOutcome where
  | failure (msg : String)
  | success (body : String)
deriving DecidableEq

/-- Observable result of one search operation.  A file is written in the
wrote case only; every other case prints a message and writes no file,
and no case escapes as an unhandled exception. -/
inductive RunResult where
  | inputError (msg : String)
  | fetchError (msg : String)
  | noResults (msg : String)
  | parseError (msg : String)
  | noValid (msg : String)
  | wrote (path : String) (content : String) (names : List String)
deriving DecidableEq

/-- Embedding of search domain (lines 43 to 89 of the source).  The JSON
decoding of the body is passed in as a function returning either the
record list or the message of the raised exception, so that the control
flow of the try block is followed faithfully. -/
def search_domain (domain : String) (fetch : FetchOutcome)
    (parse : String → Except String (List CertRecord)) : RunResult :=
  if domain = "" then .inputError "Error: Domain name is required."
  else
    match fetch with
    | .failure e => .fetchError ("Error searching domain: " ++ e)
    | .success body =>
      if body = "" then .noResults ("No results found for domain " ++ domain)
      else
        match parse body with
        | .error e => .parseError ("Error searching domain: " ++ e)
        | .ok rows =>
          let cleaned := clean_results (extractDomain rows)
          if cleaned = [] then .noValid "No valid results found."
          else
            .wrote ("output/domain." ++ domain ++ ".txt")
              (String.intercalate "\n" cleaned) cleaned

/-- Embedding of search organization (lines 91 to 129 of the source). -/
def search_organization (org : String) (fetch : FetchOutcome)
    (parse : String → Except String (List CertRecord)) : RunResult :=
  if org = "" then .inputError "Error: Organization name is required."
  else
    match fetch with
    | .failure e => .fetchError ("Error searching organization: " ++ e)
    | .success body =>
      if body = "" then .noResults ("No results found for organization " ++ org)
      else
        match parse body with
        | .error e => .parseError ("Error searching organization: " ++ e)
        | .ok rows =>
          let cleaned := clean_results (extractOrg rows)
          if cleaned = [] then .noValid "No valid results found."
          else
            .wrote ("org." ++ sanitizeOrg org ++ ".txt")
              (String.intercalate "\n" cleaned) cleaned

/-- Truthiness of an optional string argument: present and nonempty. -/
def pyTruthy : Option String → Bool
  | none => false
  | some s => !(s == "")

/-- Action selected by the dispatch in main. -/
inductive Action where
  | help
  | domainSearch (d : String)
  | orgSearch (o : String)
deriving DecidableEq

/-- Embedding of the dispatch in main (lines 140 to 147 of the source):
help when both arguments are falsy, otherwise the domain branch is tried
first and the organization branch only when the domain argument is falsy. -/
def main (domain org : Option String) : Action :=
  if pyTruthy domain || pyTruthy org then
    if pyTruthy domain then .domainSearch (domain.getD "")
    else .orgSearch (org.getD "")
  else .help

/-- Decides whether the two character sequence star dot occurs anywhere
in a character list. -/
def hasStarDot : List Char → Bool
  | [] => false
  | [_] => false
  | a :: b :: rest => (a == '*' && b == '.') || hasStarDot (b :: rest)

/-- Declarative shape of a substring matched by the email pattern of line
33 of the source: a nonempty local part, the at sign, a nonempty domain
run, a dot, and a final label of two to four letters. -/
def emailShape (l : List Char) : Prop :=
  ∃ a b t : List Char,
    l = a ++ '@' :: (b ++ '.' :: t) ∧
    a ≠ [] ∧ (∀ c ∈ a, isLocalChar c = true) ∧
    b ≠ [] ∧ (∀ c ∈ b, isDomChar c = true) ∧
    2 ≤ t.length ∧ t.length ≤ 4 ∧ (∀ c ∈ t, isTldChar c = true)

/-! Order properties of the lexicographic comparison. -/

theorem lexLe_refl (l : List Char) : lexLe l l = true := by
  induction l with
  | nil => rfl
  | cons a as ih => simp [lexLe, ih]

theorem lexLe_total (l₁ l₂ : List Char) : lexLe l₁ l₂ = true ∨ lexLe l₂ l₁ = true := by
  induction l₁ generalizing l₂ with
  | nil => left; rfl
  | cons a as ih =>
    cases l₂ with
    | nil => right; rfl
    | cons b bs =>
      rcases lt_trichotomy a b with h | h | h
      · left; simp [lexLe, h]
      · subst h
        simpa [lexLe] using ih bs
      · right; simp [lexLe, h]

theorem lexLe_trans {l₁ l₂ l₃ : List Char} (h₁ : lexLe l₁ l₂ = true)
    (h₂ : lexLe l₂ l₃ = true) : lexLe l₁ l₃ = true := by
  induction l₁ generalizing l₂ l₃ with
  | nil => rfl
  | cons a as ih =>
    cases l₂ with
    | nil => simp [lexLe] at h₁
    | cons b bs =>
      cases l₃ with
      | nil => simp [lexLe] at h₂
      | cons c cs =>
        simp only [lexLe] at h₁ h₂ ⊢
        by_cases hab : a < b
        · by_cases hbc : b < c
          · simp [lt_trans hab hbc]
          · by_cases hcb : c < b
            · simp [hbc, hcb] at h₂
            · have hbc' : b = c := le_antisymm (not_lt.mp hcb) (not_lt.mp hbc)
              subst hbc'
              simp [hab]
        · by_cases hba : b < a
          · simp [hab, hba] at h₁
          · have hab' : a = b := le_antisymm (not_lt.mp hba) (not_lt.mp hab)
            subst hab'
            simp only [lt_irrefl, if_false] at h₁
            by_cases hbc : a < c
            · simp [hbc]
            · by_cases hcb : c < a
              · simp [hbc, hcb] at h₂
              · have hbc' : a = c := le_antisymm (not_lt.mp hcb) (not_lt.mp hbc)
                subst hbc'
                simp only [lt_irrefl, if_false] at h₂ ⊢
                exact ih h₁ h₂

theorem lexLe_antisymm {l₁ l₂ : List Char} (h₁ : lexLe l₁ l₂ = true)
    (h₂ : lexLe l₂ l₁ = true) : l₁ = l₂ := by
  induction l₁ generalizing l₂ with
  | nil =>
    cases l₂ with
    | nil => rfl
    | cons b bs => simp [lexLe] at h₂
  | cons a as ih =>
    cases l₂ with
    | nil => simp [lexLe] at h₁
    | cons b bs =>
      simp only [lexLe] at h₁ h₂
      rcases lt_trichotomy a b with hab | hab | hab
      · simp [hab, lt_asymm hab] at h₂
      · subst hab
        simp only [lt_irrefl, if_false] at h₁ h₂
        exact congrArg (a :: ·) (ih h₁ h₂)
      · simp [hab, lt_asymm hab] at h₁

instance : IsTotal String strLe := ⟨fun s t => lexLe_total s.data t.data⟩

instance : IsTrans String strLe := ⟨fun _ _ _ h₁ h₂ => lexLe_trans h₁ h₂⟩

instance : IsAntisymm String strLe :=
  ⟨fun a b h₁ h₂ => by
    cases a
    cases b
    exact congrArg String.mk (lexLe_antisymm h₁ h₂)⟩

instance : IsRefl String strLe := ⟨fun s => lexLe_refl s.data⟩

/-! Properties of the accumulating loop of clean results. -/

theorem cleanAccum_nodup : ∀ (xs : List String) (acc : List String),
    acc.Nodup → (cleanAccum acc xs).Nodup
  | [], acc, h => h
  | x :: xs, acc, h => by
    rw [cleanAccum]
    split
    · exact cleanAccum_nodup xs acc h
    · split
      · next hcond =>
        exact cleanAccum_nodup xs (acc ++ [cleanItem x])
          (by simp [List.nodup_append, h, hcond.2])
      · exact cleanAccum_nodup xs acc h

theorem mem_cleanAccum {a : String} : ∀ (xs : List String) (acc : List String),
    a ∈ cleanAccum acc xs ↔
      a ∈ acc ∨ ∃ x ∈ xs, x ≠ "" ∧ cleanItem x = a ∧ a ≠ ""
  | [], acc => by simp [cleanAccum]
  | x :: xs, acc => by
    rw [cleanAccum]
    split
    · next hx =>
      subst hx
      rw [mem_cleanAccum xs acc]
      constructor
      · rintro (h | ⟨x, hx, hne, hc, hA⟩)
        · exact Or.inl h
        · exact Or.inr ⟨x, List.mem_cons_of_mem _ hx, hne, hc, hA⟩
      · rintro (h | ⟨x, hx, hne, hc, hA⟩)
        · exact Or.inl h
        · rcases List.mem_cons.mp hx with rfl | hx
          · exact absurd rfl hne
          · exact Or.inr ⟨x, hx, hne, hc, hA⟩
    · next hx =>
      split
      · next hcond =>
        rw [mem_cleanAccum xs (acc ++ [cleanItem x])]
        constructor
        · rintro (h | ⟨z, hz, hne, hc, hA⟩)
          · rcases List.mem_append.mp h with h | h
            · exact Or.inl h
            · rcases List.mem_singleton.mp h with rfl
              exact Or.inr ⟨x, List.mem_cons_self x xs, hx, rfl, hcond.1⟩
          · exact Or.inr ⟨z, List.mem_cons_of_mem _ hz, hne, hc, hA⟩
        · rintro (h | ⟨z, hz, hne, hc, hA⟩)
          · exact Or.inl (List.mem_append.mpr (Or.inl h))
          · rcases List.mem_cons.mp hz with rfl | hz
            · exact Or.inl (List.mem_append.mpr (Or.inr (by simp [hc])))
            · exact Or.inr ⟨z, hz, hne, hc, hA⟩
      · next hcond =>
        rw [mem_cleanAccum xs acc]
        have hcond : cleanItem x = "" ∨ cleanItem x ∈ acc := by
          by_cases h1 : cleanItem x = ""
          · exact Or.inl h1
          · by_cases h2 : cleanItem x ∈ acc
            · exact Or.inr h2
            · exact absurd ⟨h1, h2⟩ hcond
        constructor
        · rintro (h | ⟨z, hz, hne, hc, hA⟩)
          · exact Or.inl h
          · exact Or.inr ⟨z, List.mem_cons_of_mem _ hz, hne, hc, hA⟩
        · rintro (h | ⟨z, hz, hne, hc, hA⟩)
          · exact Or.inl h
          · rcases List.mem_cons.mp hz with rfl | hz
            · rcases hcond with h0 | hmem
              · exact absurd (hc ▸ h0) hA
              · exact Or.inl (hc ▸ hmem)
            · exact Or.inr ⟨z, hz, hne, hc, hA⟩

/-- Membership in the final NameSet: exactly the nonempty normal forms of
the nonempty raw candidates. -/
theorem mem_clean_results {a : String} {xs : List String} :
    a ∈ clean_results xs ↔ ∃ x ∈ xs, x ≠ "" ∧ cleanItem x = a ∧ a ≠ "" := by
  rw [clean_results, (List.perm_insertionSort strLe (cleanAccum [] xs)).mem_iff,
    mem_cleanAccum]
  simp

theorem clean_results_nodup (xs : List String) : (clean_results xs).Nodup :=
  (List.perm_insertionSort strLe (cleanAccum [] xs)).nodup_iff.mpr
    (cleanAccum_nodup xs [] List.nodup_nil)

theorem clean_results_sorted (xs : List String) :
    (clean_results xs).Sorted strLe :=
  List.sorted_insertionSort strLe (cleanAccum [] xs)

/-! The wildcard pass removes exactly the leftmost non-overlapping
occurrences of the star dot sequence. -/

theorem removeStarDot_cons_ne (c : Char) (rest : List Char)
    (h : ∀ r : List Char, c = '*' → rest = '.' :: r → False) :
    removeStarDot (c :: rest) = c :: removeStarDot rest := by
  rw [removeStarDot.eq_def]
  split
  · simp_all
  · next _ r heq =>
    injection heq with e1 e2
    exact (h r e1 e2).elim
  · next _ c2 r2 _ heq =>
    injection heq with e1 e2
    rw [e1, e2]

theorem intercalate_singleton_parts (sep x : List Char) :
    List.intercalate sep [x] = x := by
  simp [List.intercalate, List.intersperse]

theorem intercalate_cons_parts (sep x y : List Char) (ys : List (List Char)) :
    List.intercalate sep (x :: y :: ys) = x ++ sep ++ List.intercalate sep (y :: ys) := by
  simp [List.intercalate, List.intersperse]

theorem intercalate_cons_head (sep : List Char) (c : Char) (p : List Char)
    (ps : List (List Char)) :
    List.intercalate sep ((c :: p) :: ps) = c :: List.intercalate sep (p :: ps) := by
  cases ps with
  | nil => rw [intercalate_singleton_parts, intercalate_singleton_parts]
  | cons y ys => rw [intercalate_cons_parts, intercalate_cons_parts]; rfl

/-- Decomposition produced by the wildcard pass: the input is the parts
interleaved with the star dot separator, the output is the concatenated
parts, no part contains the separator, and a nonempty head part starts
with the first character of the input. -/
theorem removeStarDot_decomp : ∀ l : List Char,
    ∃ parts : List (List Char),
      parts ≠ [] ∧
      l = List.intercalate ['*', '.'] parts ∧
      removeStarDot l = parts.flatten ∧
      (∀ p ∈ parts, hasStarDot p = false) ∧
      (∀ c cs, parts.head? = some (c :: cs) → l.head? = some c) := by
  intro l
  induction l using removeStarDot.induct with
  | case1 =>
    exact ⟨[[]], by simp, (intercalate_singleton_parts _ _).symm, by simp [removeStarDot],
      by simp [hasStarDot], by simp⟩
  | case2 rest ih =>
    obtain ⟨parts, hne, hint, hrw, hsd, hhd⟩ := ih
    obtain ⟨q, qs, rfl⟩ := List.exists_cons_of_ne_nil hne
    refine ⟨[] :: q :: qs, by simp, ?_, ?_, ?_, ?_⟩
    · rw [intercalate_cons_parts]
      simpa using hint
    · simpa [removeStarDot] using hrw
    · intro p hp
      rcases List.mem_cons.mp hp with rfl | hp
      · rfl
      · exact hsd p hp
    · intro c cs hc
      simp at hc
  | case3 c rest h ih =>
    obtain ⟨parts, hne, hint, hrw, hsd, hhd⟩ := ih
    obtain ⟨q, qs, rfl⟩ := List.exists_cons_of_ne_nil hne
    refine ⟨(c :: q) :: qs, by simp, ?_, ?_, ?_, ?_⟩
    · rw [intercalate_cons_head, ← hint]
    · rw [removeStarDot_cons_ne c rest h, hrw]
      rfl
    · intro p hp
      rcases List.mem_cons.mp hp with rfl | hp
      · cases q with
        | nil => rfl
        | cons d ds =>
          have hd : rest.head? = some d := hhd d ds rfl
          have hq : hasStarDot (d :: ds) = false := hsd (d :: ds) (List.mem_cons_self _ _)
          show ((c == '*' && d == '.') || hasStarDot (d :: ds)) = false
          rw [hq, Bool.or_false]
          by_cases hc : c = '*'
          · by_cases hdd : d = '.'
            · subst hc hdd
              obtain ⟨r, hr⟩ : ∃ r, rest = '.' :: r := by
                cases rest with
                | nil => simp at hd
                | cons e es =>
                  injection hd with he
                  exact ⟨es, by rw [he]⟩
              exact (h r rfl hr).elim
            · simp [hdd]
          · simp [hc]
      · exact hsd p (List.mem_cons_of_mem _ hp)
    · intro d ds hd
      injection hd with hd
      injection hd with hd1 _
      simp [hd1]

/-! The email pass deletes exactly email-shaped spans, leaving the
surrounding text in place. -/

theorem tryDot_spec {rest : List Char} : ∀ {j i t : Nat},
    tryDot rest j = some (i, t) →
    1 ≤ i ∧ i ≤ j ∧ rest.getD i '@' = '.' ∧
      t = min ((rest.drop (i + 1)).takeWhile isTldChar).length 4 ∧ 2 ≤ t := by
  intro j
  induction j with
  | zero => intro i t h; simp [tryDot] at h
  | succ j ih =>
    intro i t h
    rw [tryDot] at h
    split at h
    · next hdot =>
      split at h
      · next ht =>
        injection h with h
        injection h with h1 h2
        subst h1
        subst h2
        refine ⟨by omega, le_refl _, by simpa using hdot, rfl, ht⟩
      · obtain ⟨a1, a2, a3, a4, a5⟩ := ih h
        exact ⟨a1, by omega, a3, a4, a5⟩
    · obtain ⟨a1, a2, a3, a4, a5⟩ := ih h
      exact ⟨a1, by omega, a3, a4, a5⟩

theorem matchEmail_pos {l : List Char} {n : Nat} (h : matchEmail l = some n) :
    1 ≤ n := by
  unfold matchEmail at h
  split at h
  · exact absurd h (by simp)
  · split at h
    · split at h
      · exact absurd h (by simp)
      · split at h
        · injection h with h
          omega
        · exact absurd h (by simp)
    · exact absurd h (by simp)

theorem take_length_takeWhile (p : Char → Bool) (l : List Char) :
    l.take (l.takeWhile p).length = l.takeWhile p := by
  induction l with
  | nil => rfl
  | cons c cs ih =>
    by_cases hc : p c
    · simp [List.takeWhile_cons, hc, ih]
    · simp [List.takeWhile_cons, hc]

theorem take_of_le_takeWhile (p : Char → Bool) (l : List Char) {i : Nat}
    (h : i ≤ (l.takeWhile p).length) :
    l.take i = (l.takeWhile p).take i := by
  have h0 : l.takeWhile p ++ l.dropWhile p = l := List.takeWhile_append_dropWhile p l
  calc l.take i = (l.takeWhile p ++ l.dropWhile p).take i := by rw [h0]
    _ = (l.takeWhile p).take i ++ (l.dropWhile p).take (i - (l.takeWhile p).length) :=
        List.take_append_eq_append_take
    _ = (l.takeWhile p).take i := by
        have h1 : i - (l.takeWhile p).length = 0 := by omega
        simp [h1]

theorem mem_take_takeWhile {p : Char → Bool} {l : List Char} {i : Nat}
    (h : i ≤ (l.takeWhile p).length) : ∀ c ∈ l.take i, p c = true := by
  rw [take_of_le_takeWhile p l h]
  intro c hc
  exact List.mem_takeWhile_imp (List.mem_of_mem_take hc)

theorem matchEmail_shape {l : List Char} {n : Nat} (h : matchEmail l = some n) :
    emailShape (l.take n) := by
  unfold matchEmail at h
  split at h
  · exact absurd h (by simp)
  · next ha =>
    split at h
    · next rest heq =>
      split at h
      · exact absurd h (by simp)
      · next hm =>
        split at h
        · next i t htd =>
          injection h with hn
          obtain ⟨hi1, hij, hdot, ht, ht2⟩ := tryDot_spec htd
          have ha0 : (l.takeWhile isLocalChar).length ≠ 0 := by simpa using ha
          have hm0 : (rest.takeWhile isDomChar).length ≠ 0 := by simpa using hm
          have him : i < (rest.takeWhile isDomChar).length := by omega
          have hmr : (rest.takeWhile isDomChar).length ≤ rest.length :=
            (List.takeWhile_prefix isDomChar).length_le
          have hir : i < rest.length := lt_of_lt_of_le him hmr
          have htl : ((rest.drop (i + 1)).takeWhile isTldChar).length ≤
              (rest.drop (i + 1)).length := (List.takeWhile_prefix isTldChar).length_le
          have hl : l = l.takeWhile isLocalChar ++ '@' :: rest := by
            have h2 := List.take_append_drop (l.takeWhile isLocalChar).length l
            rw [take_length_takeWhile, heq] at h2
            exact h2.symm
          have hdropi : rest.drop i = '.' :: rest.drop (i + 1) := by
            have hget : rest.getD i '@' = rest[i] := List.getD_eq_getElem rest '@' hir
            have h3 := List.drop_eq_getElem_cons hir
            rw [← hget, hdot] at h3
            exact h3
          have hresti : rest = rest.take i ++ '.' :: rest.drop (i + 1) := by
            have h4 := List.take_append_drop i rest
            rw [hdropi] at h4
            exact h4.symm
          refine ⟨l.takeWhile isLocalChar, rest.take i, (rest.drop (i + 1)).take t,
            ?_, ?_, ?_, ?_, ?_, ?_, ?_, ?_⟩
          · subst hn
            set A := l.takeWhile isLocalChar with hA
            have hti : (rest.take i).length = i := by
              rw [List.length_take]
              omega
            calc l.take (A.length + 1 + i + 1 + t)
                = (A ++ '@' :: rest).take (A.length + 1 + i + 1 + t) := by rw [← hl]
              _ = A ++ ('@' :: rest).take (A.length + 1 + i + 1 + t - A.length) := by
                  rw [List.take_append_eq_append_take]
                  rw [List.take_of_length_le (by omega)]
              _ = A ++ ('@' :: rest).take ((i + (1 + t)) + 1) := by
                  have h6 : A.length + 1 + i + 1 + t - A.length = (i + (1 + t)) + 1 := by
                    omega
                  rw [h6]
              _ = A ++ '@' :: rest.take (i + (1 + t)) := by rw [List.take_succ_cons]
              _ = A ++ '@' :: (rest.take i ++ '.' :: rest.drop (i + 1)).take (i + (1 + t)) := by
                  rw [← hresti]
              _ = A ++ '@' :: (rest.take i ++ ('.' :: rest.drop (i + 1)).take (t + 1)) := by
                  rw [List.take_append_eq_append_take]
                  rw [List.take_of_length_le (by omega), hti]
                  have h10 : i + (1 + t) - i = t + 1 := by omega
                  rw [h10]
              _ = A ++ '@' :: (rest.take i ++ '.' :: (rest.drop (i + 1)).take t) := by
                  rw [List.take_succ_cons]
          · intro hnil
            rw [hnil] at ha0
            exact ha0 rfl
          · intro c hc
            exact List.mem_takeWhile_imp hc
          · intro hnil
            have h7 : (rest.take i).length = i := by
              rw [List.length_take]
              omega
            rw [hnil] at h7
            simp at h7
            omega
          · exact mem_take_takeWhile (le_of_lt him)
          · have h8 : ((rest.drop (i + 1)).take t).length = t := by
              rw [List.length_take]
              omega
            omega
          · have h8 : ((rest.drop (i + 1)).take t).length = t := by
              rw [List.length_take]
              omega
            omega
          · exact mem_take_takeWhile (by omega)
        · exact absurd h (by simp)
    · exact absurd h (by simp)

/-- Decomposition produced by the email pass: the input is a sequence of
kept pieces interleaved with removed pieces, every removed piece has the
shape the email pattern matches, and the output is the concatenation of
the kept pieces in their original order. -/
theorem subEmailsAux_decomp : ∀ (fuel : Nat) (l : List Char), l.length ≤ fuel →
    ∃ ps : List (List Char × List Char),
      (∀ p ∈ ps, p.2 = [] ∨ emailShape p.2) ∧
      (ps.map fun p => p.1 ++ p.2).flatten = l ∧
      (ps.map Prod.fst).flatten = subEmailsAux fuel l := by
  intro fuel
  induction fuel with
  | zero =>
    intro l hl
    have h0 : l = [] := List.eq_nil_of_length_eq_zero (by omega)
    subst h0
    exact ⟨[], by simp, by simp, by simp [subEmailsAux]⟩
  | succ fuel ih =>
    intro l hl
    cases l with
    | nil => exact ⟨[], by simp, by simp, by simp [subEmailsAux]⟩
    | cons c rest =>
      cases hm : matchEmail (c :: rest) with
      | some n =>
        have hn1 : 1 ≤ n := matchEmail_pos hm
        have hlen : ((c :: rest).drop n).length ≤ fuel := by
          rw [List.length_drop]
          simp only [List.length_cons] at hl ⊢
          omega
        obtain ⟨ps, hsh, hfl, hkp⟩ := ih ((c :: rest).drop n) hlen
        refine ⟨([], (c :: rest).take n) :: ps, ?_, ?_, ?_⟩
        · intro p hp
          rcases List.mem_cons.mp hp with rfl | hp
          · exact Or.inr (matchEmail_shape hm)
          · exact hsh p hp
        · simp only [List.map_cons, List.flatten_cons, hfl, List.nil_append]
          exact List.take_append_drop n (c :: rest)
        · simp only [List.map_cons, List.flatten_cons, hkp, List.nil_append]
          simp [subEmailsAux, hm]
      | none =>
        have hlen : rest.length ≤ fuel := by
          simp only [List.length_cons] at hl
          omega
        obtain ⟨ps, hsh, hfl, hkp⟩ := ih rest hlen
        refine ⟨([c], []) :: ps, ?_, ?_, ?_⟩
        · intro p hp
          rcases List.mem_cons.mp hp with rfl | hp
          · exact Or.inl rfl
          · exact hsh p hp
        · simp [hfl]
        · simp [subEmailsAux, hm, hkp]

end Crtsh

/-- C1 (failing input of the claim): in domain-search mode the source
splits the name value on the literal two-character sequence backslash n
(line 69 splits on an escaped backslash), not on the newline character
that JSON parsing produces.  On the mock record with common name
WWW.EXAMPLE.COM and a name value holding two names joined by an actual
newline, the two names stay one candidate, so the NameSet is the
two-element list below and not the three names the claim states. -/
theorem C1_literal_backslash_split_divergence :
    Crtsh.clean_results (Crtsh.extractDomain
        [⟨some "WWW.EXAMPLE.COM", some "a.example.com\nb.Example.com"⟩]) =
      ["a.example.com\nb.example.com", "www.example.com"] ∧
    Crtsh.clean_results (Crtsh.extractDomain
        [⟨some "WWW.EXAMPLE.COM", some "a.example.com\nb.Example.com"⟩]) ≠
      ["a.example.com", "b.example.com", "www.example.com"] := by
  exact ⟨by decide, by decide⟩

/-- C5: the email pass of the Normalizer deletes spans that match the
email pattern (nonempty local part of letters, digits and the characters
dot, underscore, percent, plus, minus; an at sign; a nonempty domain run
of letters, digits, dot, minus; a dot; a final label of two to four
letters), leaving the surrounding text intact and in order; in
particular the candidate admin@example.com.example.org is matched in
full, so exactly the matched portion is removed and the empty string
remains. -/
theorem C5_email_pass_removes_matches :
    (∀ l : List Char, ∃ ps : List (List Char × List Char),
        (∀ p ∈ ps, p.2 = [] ∨ Crtsh.emailShape p.2) ∧
        (ps.map fun p => p.1 ++ p.2).flatten = l ∧
        (ps.map Prod.fst).flatten = Crtsh.subEmails l) ∧
    Crtsh.subEmails ("admin@example.com.example.org" : String).data = [] ∧
    Crtsh.cleanItem "admin@example.com.example.org" = "" := by
  refine ⟨fun l => Crtsh.subEmailsAux_decomp l.length l (le_refl _), by decide, by decide⟩

/-- C2: for every candidate string, the wildcard pass of the Normalizer
removes every occurrence of the literal two-character pattern star dot
anywhere in the string, not only a leading prefix: the input splits into
separator-free parts interleaved with that pattern and the output is the
concatenation of the parts; in particular the candidate
"*.*.example.com" becomes "example.com". -/
theorem C2_wildcard_removes_all_occurrences :
    (∀ l : List Char, ∃ parts : List (List Char),
        l = List.intercalate ['*', '.'] parts ∧
        Crtsh.removeStarDot l = parts.flatten ∧
        ∀ p ∈ parts, Crtsh.hasStarDot p = false) ∧
    Crtsh.removeStarDot ("*.*.example.com" : String).data = ("example.com" : String).data :=
  ⟨fun l => by
    obtain ⟨parts, _, hint, hrw, hsd, _⟩ := Crtsh.removeStarDot_decomp l
    exact ⟨parts, hint, hrw, hsd⟩,
  by decide⟩

/-- C3: for every input list of raw candidate strings, the NameSet
produced by normalization contains no duplicate entries (the entries are
the normalized, lowercased strings) and is sorted in ascending
lexicographic order (by code point). -/
theorem C3_clean_results_nodup_sorted (xs : List String) :
    (Crtsh.clean_results xs).Nodup ∧ (Crtsh.clean_results xs).Sorted Crtsh.strLe :=
  ⟨Crtsh.clean_results_nodup xs, Crtsh.clean_results_sorted xs⟩


/-- C6: when the HTTP fetch succeeds but the body has zero length, both
search operations short-circuit to the informational no-results outcome:
no file is written (the result is not the wrote outcome) and the run is
not an error outcome. -/
theorem C6_empty_body_short_circuits (domain org : String)
    (parse : String → Except String (List Crtsh.CertRecord))
    (hd : domain ≠ "") (ho : org ≠ "") :
    Crtsh.search_domain domain (.success "") parse =
      .noResults ("No results found for domain " ++ domain) ∧
    Crtsh.search_organization org (.success "") parse =
      .noResults ("No results found for organization " ++ org) := by
  constructor
  · unfold Crtsh.search_domain
    rw [if_neg hd]
    rfl
  · unfold Crtsh.search_organization
    rw [if_neg ho]
    rfl

theorem C6_witness :
    Crtsh.search_domain "example.com" (.success "") (fun _ => .error "x") =
      .noResults "No results found for domain example.com" ∧
    Crtsh.search_organization "Example" (.success "") (fun _ => .error "x") =
      .noResults "No results found for organization Example" :=
  C6_empty_body_short_circuits "example.com" "Example" (fun _ => .error "x")
    (by decide) (by decide)

/-- C7: when the body is present but its JSON decoding raises, the search
operation returns the caught-exception outcome carrying a user-facing
message, and in particular does not write a file and does not escape as
an unhandled exception (the embedding is a total function into outcomes). -/
theorem C7_invalid_json_reported (domain body e : String)
    (parse : String → Except String (List Crtsh.CertRecord))
    (hd : domain ≠ "") (hb : body ≠ "") (hp : parse body = .error e) :
    Crtsh.search_domain domain (.success body) parse =
      .parseError ("Error searching domain: " ++ e) ∧
    ∀ path content names,
      Crtsh.search_domain domain (.success body) parse ≠ .wrote path content names := by
  have h1 : Crtsh.search_domain domain (.success body) parse =
      .parseError ("Error searching domain: " ++ e) := by
    unfold Crtsh.search_domain
    rw [if_neg hd]
    simp only [if_neg hb, hp]
  exact ⟨h1, fun path content names hw => by rw [h1] at hw; exact Crtsh.RunResult.noConfusion hw⟩

theorem C7_witness :
    Crtsh.search_domain "example.com" (.success "not json")
        (fun _ => .error "Expecting value") =
      .parseError "Error searching domain: Expecting value" ∧
    ∀ path content names,
      Crtsh.search_domain "example.com" (.success "not json")
          (fun _ => .error "Expecting value") ≠ .wrote path content names :=
  C7_invalid_json_reported "example.com" "not json" "Expecting value"
    (fun _ => .error "Expecting value") (by decide) (by decide) rfl

/-- C8: when both command line flags carry nonempty values, the dispatch
selects the domain search and the organization search is not attempted
(the selected action is the domain action, not the organization one). -/
theorem C8_domain_takes_precedence (d o : String) (hd : d ≠ "") (ho : o ≠ "") :
    Crtsh.main (some d) (some o) = .domainSearch d := by
  have hdb : (d == "") = false := by
    cases hb : d == ""
    · rfl
    · exact absurd (eq_of_beq hb) hd
  simp [Crtsh.main, Crtsh.pyTruthy, hdb]

theorem C8_witness : Crtsh.main (some "example.com") (some "Example Inc") =
    .domainSearch "example.com" :=
  C8_domain_takes_precedence "example.com" "Example Inc" (by decide) (by decide)

/-- C9: the organization search consults only the common name field of
each record (rewriting every name value leaves the extraction unchanged);
duplicates collapse; and for the scenario of the claim the NameSet is the
single name foo.example.com written to org.Example__Inc_.txt, whose path
sanitises every non-alphanumeric character of the organization to an
underscore. -/
theorem C9_org_search_common_name_only (rows : List Crtsh.CertRecord)
    (g : Crtsh.CertRecord → Option String) :
    Crtsh.extractOrg (rows.map fun r => ⟨r.common_name, g r⟩) =
      Crtsh.extractOrg rows ∧
    Crtsh.search_organization "Example, Inc." (.success "body")
        (fun _ => .ok [⟨some "foo.example.com", none⟩, ⟨some "foo.example.com", none⟩]) =
      .wrote "org.Example__Inc_.txt" "foo.example.com" ["foo.example.com"] := by
  constructor
  · rw [Crtsh.extractOrg, Crtsh.extractOrg, List.filterMap_map]
    rfl
  · decide

/-- C10: normalization is permutation invariant: permuting the raw
candidate list does not change the NameSet, since the accepted set and
the final sort are both order independent. -/
theorem C10_clean_results_perm_invariant (xs ys : List String) (h : xs.Perm ys) :
    Crtsh.clean_results xs = Crtsh.clean_results ys := by
  refine List.eq_of_perm_of_sorted ?_ (Crtsh.clean_results_sorted xs)
    (Crtsh.clean_results_sorted ys)
  refine (List.perm_ext_iff_of_nodup (Crtsh.clean_results_nodup xs)
    (Crtsh.clean_results_nodup ys)).mpr ?_
  intro a
  rw [Crtsh.mem_clean_results, Crtsh.mem_clean_results]
  constructor
  · rintro ⟨x, hx, hprop⟩
    exact ⟨x, h.subset hx, hprop⟩
  · rintro ⟨x, hx, hprop⟩
    exact ⟨x, h.symm.subset hx, hprop⟩

theorem C10_witness :
    Crtsh.clean_results ["b.example.com", "a.example.com"] =
      Crtsh.clean_results ["a.example.com", "b.example.com"] :=
  C10_clean_results_perm_invariant ["b.example.com", "a.example.com"]
    ["a.example.com", "b.example.com"] (List.Perm.swap "a.example.com" "b.example.com" [])

namespace Crtsh

/-! Fixed points of the per-candidate normalisation: on candidates free
of the star and at-sign characters the two substitution passes are
inert, and strip and lowercase are idempotent and commute. -/

theorem toNat_ofNat_valid (n : Nat) (h : n < 55296) : (Char.ofNat n).toNat = n := by
  have hv : n.isValidChar := Or.inl h
  rw [Char.ofNat, dif_pos hv]
  rfl

theorem toLower_eq (d : Char) :
    d.toLower = if 65 ≤ d.toNat ∧ d.toNat ≤ 90 then Char.ofNat (d.toNat + 32) else d := rfl

theorem toLower_toNat_of_range {d : Char} (hr : 65 ≤ d.toNat ∧ d.toNat ≤ 90) :
    d.toLower.toNat = d.toNat + 32 := by
  rw [toLower_eq, if_pos hr]
  exact toNat_ofNat_valid _ (by omega)

theorem toLower_ne_small {d e : Char} (he : e.toNat < 97) (hd : d ≠ e) :
    d.toLower ≠ e := by
  intro h
  by_cases hr : 65 ≤ d.toNat ∧ d.toNat ≤ 90
  · have h1 := toLower_toNat_of_range hr
    rw [h] at h1
    omega
  · rw [toLower_eq, if_neg hr] at h
    exact hd h

theorem toLower_toLower (d : Char) : d.toLower.toLower = d.toLower := by
  by_cases hr : 65 ≤ d.toNat ∧ d.toNat ≤ 90
  · have h1 := toLower_toNat_of_range hr
    rw [toLower_eq d.toLower, if_neg (by omega)]
  · rw [toLower_eq d, if_neg hr, toLower_eq d, if_neg hr]

theorem isPySpace_eq_false_of_big {d : Char} (h : 64 < d.toNat) :
    isPySpace d = false := by
  have hne : ∀ (c : Char), c.toNat < 64 → (d == c) = false := by
    intro c hc
    cases hb : d == c
    · rfl
    · have he := congrArg Char.toNat (eq_of_beq hb)
      omega
  rw [isPySpace, hne ' ' (by decide), hne '\t' (by decide), hne '\n' (by decide),
    hne '\r' (by decide), hne '\x0b' (by decide), hne '\x0c' (by decide)]
  rfl

theorem isPySpace_toLower (d : Char) : isPySpace d.toLower = isPySpace d := by
  by_cases hr : 65 ≤ d.toNat ∧ d.toNat ≤ 90
  · have h1 := toLower_toNat_of_range hr
    rw [isPySpace_eq_false_of_big (by omega), isPySpace_eq_false_of_big (by omega)]
  · rw [toLower_eq, if_neg hr]

theorem removeStarDot_id {l : List Char} (h : ∀ c ∈ l, c ≠ '*') :
    removeStarDot l = l := by
  induction l using removeStarDot.induct with
  | case1 => rfl
  | case2 rest ih => exact absurd rfl (h '*' (List.mem_cons_self _ _))
  | case3 c rest hne ih =>
    rw [removeStarDot_cons_ne c rest hne,
      ih (fun d hd => h d (List.mem_cons_of_mem _ hd))]

theorem matchEmail_none {l : List Char} (h : ('@' : Char) ∉ l) :
    matchEmail l = none := by
  unfold matchEmail
  split
  · rfl
  · split
    · next rest heq =>
      exfalso
      apply h
      have hm : ('@' : Char) ∈ l.drop (l.takeWhile isLocalChar).length := by
        rw [heq]
        exact List.mem_cons_self _ _
      exact List.mem_of_mem_drop hm
    · rfl

theorem subEmailsAux_id : ∀ (fuel : Nat) (l : List Char), ('@' : Char) ∉ l →
    subEmailsAux fuel l = l
  | 0, _, _ => rfl
  | _ + 1, [], _ => rfl
  | fuel + 1, c :: rest, h => by
    have hm : matchEmail (c :: rest) = none := matchEmail_none h
    simp only [subEmailsAux, hm]
    exact congrArg (c :: ·)
      (subEmailsAux_id fuel rest (fun hr => h (List.mem_cons_of_mem _ hr)))

theorem subEmails_id {l : List Char} (h : ('@' : Char) ∉ l) : subEmails l = l :=
  subEmailsAux_id l.length l h

theorem dropWhile_head_false {p : Char → Bool} : ∀ {l : List Char} {c : Char}
    {r : List Char}, l.dropWhile p = c :: r → p c = false := by
  intro l
  induction l with
  | nil => intro c r h; exact absurd h (by simp)
  | cons a as ih =>
    intro c r h
    rw [List.dropWhile_cons] at h
    split at h
    · exact ih h
    · next ha =>
      injection h with h1 _
      subst h1
      simpa using ha

theorem dropWhile_dropWhile (p : Char → Bool) (l : List Char) :
    (l.dropWhile p).dropWhile p = l.dropWhile p := by
  cases hd : l.dropWhile p with
  | nil => rfl
  | cons c r => simp [List.dropWhile_cons, dropWhile_head_false hd]

end Crtsh

namespace Crtsh

theorem data_mk (l : List Char) : (String.mk l).data = l := rfl

theorem pyStrip_prefix_dropWhile (l : List Char) :
    ∃ t : List Char, pyStrip l ++ t = l.dropWhile isPySpace := by
  obtain ⟨w, hw⟩ :=
    @List.dropWhile_suffix _ ((l.dropWhile isPySpace).reverse) isPySpace
  refine ⟨w.reverse, ?_⟩
  have h2 := congrArg List.reverse hw
  rw [List.reverse_append, List.reverse_reverse] at h2
  exact h2

theorem pyStrip_dropWhile (l : List Char) :
    (pyStrip l).dropWhile isPySpace = pyStrip l := by
  cases hy : pyStrip l with
  | nil => rfl
  | cons c r =>
    obtain ⟨t, ht⟩ := pyStrip_prefix_dropWhile l
    rw [hy] at ht
    have hd : l.dropWhile isPySpace = c :: (r ++ t) := by
      rw [← ht]
      rfl
    have hc : isPySpace c = false := dropWhile_head_false hd
    simp [List.dropWhile_cons, hc]

theorem pyStrip_reverse_dropWhile (l : List Char) :
    (pyStrip l).reverse.dropWhile isPySpace = (pyStrip l).reverse := by
  have h0 : (pyStrip l).reverse = (l.dropWhile isPySpace).reverse.dropWhile isPySpace := by
    rw [pyStrip, List.reverse_reverse]
  rw [h0, dropWhile_dropWhile]

theorem pyStrip_idem (l : List Char) : pyStrip (pyStrip l) = pyStrip l := by
  calc pyStrip (pyStrip l)
      = (((pyStrip l).dropWhile isPySpace).reverse.dropWhile isPySpace).reverse := rfl
    _ = ((pyStrip l).reverse.dropWhile isPySpace).reverse := by rw [pyStrip_dropWhile]
    _ = ((pyStrip l).reverse).reverse := by rw [pyStrip_reverse_dropWhile]
    _ = pyStrip l := List.reverse_reverse _

theorem pyStrip_pyLower (l : List Char) :
    pyStrip (pyLower l) = pyLower (pyStrip l) := by
  have hcomp : isPySpace ∘ Char.toLower = isPySpace := funext isPySpace_toLower
  calc pyStrip (pyLower l)
      = (((l.map Char.toLower).dropWhile isPySpace).reverse.dropWhile isPySpace).reverse := rfl
    _ = (((l.dropWhile isPySpace).map Char.toLower).reverse.dropWhile isPySpace).reverse := by
        rw [List.dropWhile_map, hcomp]
    _ = (((l.dropWhile isPySpace).reverse.map Char.toLower).dropWhile isPySpace).reverse := by
        rw [List.map_reverse]
    _ = (((l.dropWhile isPySpace).reverse.dropWhile isPySpace).map Char.toLower).reverse := by
        rw [List.dropWhile_map, hcomp]
    _ = ((l.dropWhile isPySpace).reverse.dropWhile isPySpace).reverse.map Char.toLower := by
        rw [List.map_reverse]
    _ = pyLower (pyStrip l) := rfl

theorem pyLower_idem (l : List Char) : pyLower (pyLower l) = pyLower l := by
  have hcomp : Char.toLower ∘ Char.toLower = Char.toLower := funext toLower_toLower
  show (l.map Char.toLower).map Char.toLower = l.map Char.toLower
  rw [List.map_map, hcomp]

theorem mem_pyStrip {c : Char} {l : List Char} (h : c ∈ pyStrip l) : c ∈ l := by
  rw [pyStrip, List.mem_reverse] at h
  have h1 := (List.dropWhile_sublist isPySpace).subset h
  rw [List.mem_reverse] at h1
  exact (List.dropWhile_sublist isPySpace).subset h1

theorem cleanItem_eq_of_clean {s : String}
    (h : ∀ c ∈ s.data, c ≠ '*' ∧ c ≠ '@') :
    cleanItem s = ⟨pyLower (pyStrip s.data)⟩ := by
  rw [cleanItem, removeStarDot_id (fun c hc => (h c hc).1),
    subEmails_id (fun hc => (h '@' hc).2 rfl)]

theorem cleanItem_chars {s : String}
    (h : ∀ c ∈ s.data, c ≠ '*' ∧ c ≠ '@') :
    ∀ c ∈ (cleanItem s).data, c ≠ '*' ∧ c ≠ '@' := by
  intro c hc
  rw [cleanItem_eq_of_clean h, data_mk, pyLower, List.mem_map] at hc
  obtain ⟨d, hd, rfl⟩ := hc
  have hd2 := h d (mem_pyStrip hd)
  exact ⟨toLower_ne_small (by decide) hd2.1, toLower_ne_small (by decide) hd2.2⟩

theorem cleanItem_fixed {s : String}
    (h : ∀ c ∈ s.data, c ≠ '*' ∧ c ≠ '@') :
    cleanItem (cleanItem s) = cleanItem s := by
  rw [cleanItem_eq_of_clean (cleanItem_chars h), cleanItem_eq_of_clean h, data_mk]
  apply congrArg String.mk
  rw [pyStrip_pyLower, pyStrip_idem, pyLower_idem]

theorem cleanAccum_fixed : ∀ (L acc : List String),
    (∀ y ∈ L, y ≠ "" ∧ cleanItem y = y) → L.Nodup → (∀ y ∈ L, y ∉ acc) →
    cleanAccum acc L = acc ++ L
  | [], acc, _, _, _ => by simp [cleanAccum]
  | y :: L, acc, hfix, hnd, hdis => by
    have hy := hfix y (List.mem_cons_self _ _)
    have hcond : cleanItem y ≠ "" ∧ cleanItem y ∉ acc := by
      rw [hy.2]
      exact ⟨hy.1, hdis y (List.mem_cons_self _ _)⟩
    rw [cleanAccum, if_neg hy.1, if_pos hcond, hy.2]
    rw [cleanAccum_fixed L (acc ++ [y]) (fun z hz => hfix z (List.mem_cons_of_mem _ hz))
      (List.nodup_cons.mp hnd).2 ?dis]
    · simp
    case dis =>
      intro z hz hmem
      rcases List.mem_append.mp hmem with hmem | hmem
      · exact hdis z (List.mem_cons_of_mem _ hz) hmem
      · rcases List.mem_singleton.mp hmem with rfl
        exact (List.nodup_cons.mp hnd).1 hz

end Crtsh

/-- C4 (counterexample): normalization is not idempotent: the candidate
list with the single entry of two stars and two dots normalizes to the
single entry star dot, because the wildcard substitution removes only
occurrences present in the original scan; a second normalization then
removes that occurrence and yields the empty NameSet. -/
theorem C4_counterexample_not_idempotent :
    Crtsh.clean_results ["**.."] = ["*."] ∧
    Crtsh.clean_results (Crtsh.clean_results ["**.."]) = [] ∧
    Crtsh.clean_results (Crtsh.clean_results ["**.."]) ≠ Crtsh.clean_results ["**.."] :=
  ⟨by decide, by decide, by decide⟩

/-- C4 (amended): normalization is idempotent on candidate lists none of
whose entries contains a star or an at sign, that is, on inputs on which
the two substitution passes are inert: for every such list, applying the
normalization pipeline to its own output yields the same NameSet. -/
theorem C4_amended_idempotent_on_substitution_free (xs : List String)
    (h : ∀ s ∈ xs, ∀ c ∈ s.data, c ≠ '*' ∧ c ≠ '@') :
    Crtsh.clean_results (Crtsh.clean_results xs) = Crtsh.clean_results xs := by
  have hfix : ∀ y ∈ Crtsh.clean_results xs, y ≠ "" ∧ Crtsh.cleanItem y = y := by
    intro y hy
    obtain ⟨x, hx, hxne, hcx, hyne⟩ := Crtsh.mem_clean_results.mp hy
    subst hcx
    exact ⟨hyne, Crtsh.cleanItem_fixed (h x hx)⟩
  rw [Crtsh.clean_results,
    Crtsh.cleanAccum_fixed (Crtsh.clean_results xs) [] hfix
      (Crtsh.clean_results_nodup xs) (by simp),
    List.nil_append]
  exact (Crtsh.clean_results_sorted xs).insertionSort_eq

theorem C4_witness :
    Crtsh.clean_results (Crtsh.clean_results ["B.example.com", "a.example.com"]) =
      Crtsh.clean_results ["B.example.com", "a.example.com"] :=
  C4_amended_idempotent_on_substitution_free ["B.example.com", "a.example.com"] (by decide)
